import Mathlib

/-!
Verification of the rename orchestration core (src/src/main.rs).

The Rust program enumerates files from glob patterns, writes their names to
a scratch buffer, reads the externally edited buffer back, plans target
paths, and applies renames with a target-exists safety check.

Shallow embedding conventions:
* A `PathBuf` with a final filename component is modelled as `RPath`, a
  directory prefix (including its trailing separator, possibly empty)
  together with the final component `base`.  `with_file_name` replaces
  `base`; Rust path equality on such paths is componentwise, i.e. equality
  of `dir` and `base`.
* `OsString` values are modelled as `String`; all strings are processed at
  the `List Char` level so that every function is structurally recursive
  and kernel-evaluable.
* The filesystem is a flat list of existing paths (`FS`).  `fs::rename`
  succeeds iff the source exists and the target has a non-empty final
  component (renaming to the empty path fails on every OS); an existing
  target is overwritten, which is why the code guards with `q.exists()`.
* `die!` (print + `exit(1)`) is modelled as an `Except.error` carrying the
  message, or as an explicit `died`/`exited 1` constructor where the
  surrounding control flow matters.
-/

/-- Model of a `PathBuf` that has a final filename component: `dir` is the
leading directory prefix (with trailing separator, possibly `""`) and
`base` the final component.  `PathBuf::new()` is `⟨"", ""⟩`. -/
structure RPath where
  dir : String
  base : String
deriving DecidableEq, Repr

/-- `FileOutcome` from main.rs lines 12-17. -/
inductive FileOutcome where
  | Renamed
  | RenameWasNoop
  | Unchanged
deriving DecidableEq, Repr

/-- `FileToRename` from main.rs lines 19-25. -/
structure FileToRename where
  full_path_before : RPath
  full_path_after : RPath
  filename_before : String
  filename_after : String
  outcome : FileOutcome
deriving DecidableEq, Repr

/-- `PathBuf::new()`: the empty path (main.rs line 115). -/
def emptyPath : RPath := ⟨"", ""⟩

/-- Split a character list at its last `'.'`: returns the parts before and
after that dot, or `none` when no dot occurs. -/
def splitLastDot : List Char → Option (List Char × List Char)
  | [] => none
  | c :: rest =>
    match splitLastDot rest with
    | some (b, a) => some (c :: b, a)
    | none => if c = '.' then some ([], rest) else none

/-- Rust `Path::file_stem` / `Path::extension` on a filename string: split
at the last dot unless there is none or it is the leading character (hidden
files like `.gitignore` have no extension). -/
def rustFileStemExt (s : String) : String × Option String :=
  match splitLastDot s.data with
  | none => (s, none)
  | some ([], _) => (s, none)
  | some (b, a) => (String.mk b, some (String.mk a))

/-- Rust `Path::with_extension` on a filename string: keep the file stem and
set the extension (replacing, not appending to, any existing extension);
an empty extension just drops the old one. -/
def rustWithExtension (s ext : String) : String :=
  let stem := (rustFileStemExt s).1
  if ext = "" then stem else stem ++ "." ++ ext

/-- `Path::file_name`: the final component, when present. -/
def RPath.fileNameOpt (p : RPath) : Option String :=
  if p.base = "" then none else some p.base

/-- `Path::file_stem` of the final component. -/
def RPath.fileStemOpt (p : RPath) : Option String :=
  if p.base = "" then none else some (rustFileStemExt p.base).1

/-- `Path::extension` of the final component. -/
def RPath.extOpt (p : RPath) : Option String :=
  if p.base = "" then none else (rustFileStemExt p.base).2

/-- `Path::with_file_name`: replace the final component. -/
def RPath.withFileName (p : RPath) (name : String) : RPath := ⟨p.dir, name⟩

/-- The filesystem: the flat list of currently existing paths. -/
structure FS where
  present : List RPath
deriving DecidableEq, Repr

/-- `Path::exists`. -/
def FS.pathExists (fs : FS) (p : RPath) : Bool := fs.present.contains p

/-- `fs::rename(p, q)`: succeeds iff `p` exists and `q` has a non-empty
final component; an existing `q` is overwritten (hence the caller's
`q.exists()` guard). -/
def FS.rename (fs : FS) (p q : RPath) : Option FS :=
  if fs.pathExists p && q.base != "" then
    some ⟨((fs.present.erase p).erase q).concat q⟩
  else none

/-- Rust `char::is_whitespace` restricted to the ASCII whitespace the
claims exercise. -/
def isWsChar (c : Char) : Bool := c.isWhitespace

/-- `str::trim` at the character level: drop whitespace from both ends. -/
def trimChars (l : List Char) : List Char :=
  ((l.dropWhile isWsChar).reverse.dropWhile isWsChar).reverse

/-- Rust `str::trim` (main.rs line 204). -/
def rustTrim (s : String) : String := String.mk (trimChars s.data)

/-- Split a character list at every `'\n'` (keeping empty segments). -/
def splitNl : List Char → List (List Char)
  | [] => [[]]
  | c :: rest =>
    match splitNl rest with
    | [] => [[c]]
    | l :: ls => if c = '\n' then [] :: l :: ls else (c :: l) :: ls

/-- Drop one trailing `'\r'`, as `str::lines` does for `\r\n` endings. -/
def stripCr (l : List Char) : List Char :=
  match l.getLast? with
  | some c => if c = '\r' then l.dropLast else l
  | none => l

/-- Rust `str::lines` (main.rs line 202): split at `'\n'`, treat a final
line ending as optional, and strip a trailing `'\r'` from each line. -/
def rustLines (s : String) : List String :=
  let parts := splitNl s.data
  let parts := if parts.getLast? = some [] then parts.dropLast else parts
  parts.map (fun l => String.mk (stripCr l))

/-- `read_filenames_from_file` (main.rs lines 197-213), given the buffer
file's content: split into lines, trim each, keep the non-empty ones. -/
def readFilenamesFromFile (content : String) : List String :=
  (rustLines content).filterMap fun line =>
    let trimmed := rustTrim line
    if trimmed ≠ "" then some trimmed else none

/-- `write_filenames_to_buffer` (main.rs lines 153-171): the content written
to the scratch buffer, one `filename_before` per line, each line
newline-terminated. -/
def writeFilenamesToBuffer (files : List FileToRename) : String :=
  String.mk ((files.map fun f => f.filename_before.data ++ ['\n']).flatten)

/-- `validate_filenames` (main.rs lines 215-235). -/
def validateFilenames (expected : Nat) (names : List String) : Except String Unit :=
  if names.length < expected then
    Except.error ("Not enough filenames in text file after edit (" ++
      toString names.length ++ " instead of " ++ toString expected ++ ").")
  else if names.length > expected then
    Except.error ("Too many filenames in text file after edit (" ++
      toString names.length ++ " instead of " ++ toString expected ++ ").")
  else Except.ok ()

/-- The per-entry name computation inside `read_filenames_from_buffer`
(main.rs lines 182-190): the new name verbatim when extensions are
included, otherwise the new name with the original path's extension set
via `with_extension`. -/
def computeNameAfter (includeExt : Bool) (f : FileToRename) (newName : String) : String :=
  if includeExt then newName
  else rustWithExtension newName (f.full_path_before.extOpt.getD "")

/-- One iteration of the zip loop in `read_filenames_from_buffer`
(main.rs lines 181-192): set `filename_after` and `full_path_after`. -/
def renameEntry (includeExt : Bool) (f : FileToRename) (newName : String) : FileToRename :=
  let after := computeNameAfter includeExt f newName
  { f with filename_after := after,
           full_path_after := f.full_path_before.withFileName after }

/-- The whole zip loop: `files.iter_mut().zip(names)` pairs strictly by
position and stops at the shorter sequence, leaving later entries
untouched. -/
def applyNewNames (includeExt : Bool) (files : List FileToRename) (names : List String) :
    List FileToRename :=
  files.zipWith (renameEntry includeExt) names ++ files.drop names.length

/-- `read_filenames_from_buffer` (main.rs lines 173-195), given the edited
buffer content: parse, validate the count, then apply names positionally.
On a validation error the entries are returned to `main` unmodified (the
function returns before the zip loop runs). -/
def readFilenamesFromBuffer (content : String) (files : List FileToRename)
    (includeExt : Bool) : Except String (List FileToRename) :=
  let names := readFilenamesFromFile content
  match validateFilenames files.length names with
  | Except.error m => Except.error m
  | Except.ok _ => Except.ok (applyNewNames includeExt files names)

/-- `rename_file_if_safe` (main.rs lines 239-247): refuse when the target
already exists, otherwise call `fs::rename`. -/
def renameFileIfSafe (p q : RPath) (fs : FS) : Option FS :=
  if fs.pathExists q then none else fs.rename p q

/-- The forward while-loop of `execute_rename` (main.rs lines 260-278):
process entries strictly in index order; mark no-ops; on a rename failure
`die!` immediately, leaving the current and all later entries, and the
filesystem, exactly as they are.  The result is the final entry vector,
the final filesystem, and the fatal message if the loop died. -/
def execLoop : List FileToRename → FS → List FileToRename × FS × Option String
  | [], fs => ([], fs, none)
  | f :: rest, fs =>
    if f.full_path_after = f.full_path_before then
      let r := execLoop rest fs
      ({ f with outcome := FileOutcome.RenameWasNoop } :: r.1, r.2)
    else
      match renameFileIfSafe f.full_path_before f.full_path_after fs with
      | some fs1 =>
        let r := execLoop rest fs1
        ({ f with outcome := FileOutcome.Renamed } :: r.1, r.2)
      | none => (f :: rest, fs, some "file renaming was not safe")

/-- The rollback while-loop of `execute_rename` (main.rs lines 283-299):
undo every `Renamed` entry by renaming back. -/
def rollbackLoop : List FileToRename → FS → List FileToRename × FS × Option String
  | [], fs => ([], fs, none)
  | f :: rest, fs =>
    if f.outcome ≠ FileOutcome.Renamed then
      let r := rollbackLoop rest fs
      (f :: r.1, r.2)
    else
      match renameFileIfSafe f.full_path_after f.full_path_before fs with
      | some fs1 =>
        let r := rollbackLoop rest fs1
        ({ f with outcome := FileOutcome.Unchanged } :: r.1, r.2)
      | none => (f :: rest, fs, some "file renaming was not safe")

/-- Result of `execute_rename`: dry-run printing (then `exit(0)`), a fatal
`die!` (then `exit(1)`) with the state at death, or normal completion. -/
inductive ExecResult where
  | dryRunPrint (pairs : List (RPath × RPath))
  | died (msg : String) (files : List FileToRename) (fs : FS)
  | done (files : List FileToRename) (fs : FS)
deriving DecidableEq, Repr

/-- `execute_rename` (main.rs lines 238-301), exactly as written: the
dry-run early exit, the forward loop, and the rollback loop gated by the
local `rollback` flag, which is initialised `false` and never assigned. -/
def executeRenameModel (dryRun : Bool) (files : List FileToRename) (fs : FS) : ExecResult :=
  if dryRun then
    ExecResult.dryRunPrint (files.map fun f => (f.full_path_before, f.full_path_after))
  else
    let rollback := false
    match execLoop files fs with
    | (fl, fs', some m) => ExecResult.died m fl fs'
    | (fl, fs', none) =>
      if rollback then
        match rollbackLoop fl fs' with
        | (fl2, fs2, some m) => ExecResult.died m fl2 fs2
        | (fl2, fs2, none) => ExecResult.done fl2 fs2
      else ExecResult.done fl fs'

/-- `execute_rename` with the rollback branch removed. -/
def executeRenameNoRollback (dryRun : Bool) (files : List FileToRename) (fs : FS) : ExecResult :=
  if dryRun then
    ExecResult.dryRunPrint (files.map fun f => (f.full_path_before, f.full_path_after))
  else
    match execLoop files fs with
    | (fl, fs', some m) => ExecResult.died m fl fs'
    | (fl, fs', none) => ExecResult.done fl fs'

/-- Process exit code implied by an executor result (`none`: the process
continues to the reporter). -/
def exitOf : ExecResult → Option Nat
  | ExecResult.dryRunPrint _ => some 0
  | ExecResult.died _ _ _ => some 1
  | ExecResult.done _ _ => none

/-- A freshly enumerated entry (main.rs lines 113-119). -/
def mkEntry (p : RPath) (name : String) : FileToRename :=
  { full_path_before := p, full_path_after := emptyPath,
    filename_before := name, filename_after := "",
    outcome := FileOutcome.Unchanged }

/-- The name extraction in `list_files` (main.rs lines 104-108). -/
def extractName (includeExt : Bool) (p : RPath) : Option String :=
  if includeExt then p.fileNameOpt else p.fileStemOpt

/-- The inner path loop of `list_files` (main.rs lines 95-120): an
unreadable path records the pattern's index as invalid and continues; a
readable path is appended as an entry (dying if no name is extractable). -/
def processPaths (includeExt : Bool) (i : Nat) :
    List (Except Unit RPath) → List FileToRename → List Nat →
    Except String (List FileToRename × List Nat)
  | [], acc, inv => Except.ok (acc, inv)
  | Except.error _ :: ps, acc, inv => processPaths includeExt i ps acc (inv ++ [i])
  | Except.ok p :: ps, acc, inv =>
    match extractName includeExt p with
    | none => Except.error "Unable to get file name out of path."
    | some name => processPaths includeExt i ps (acc ++ [mkEntry p name]) inv

/-- The outer pattern loop of `list_files` (main.rs lines 85-121): a
pattern that fails to compile records its index as invalid; otherwise its
expansion is processed path by path. -/
def listFilesGo (includeExt : Bool) :
    Nat → List (Except Unit (List (Except Unit RPath))) → List FileToRename → List Nat →
    Except String (List FileToRename × List Nat)
  | _, [], acc, inv => Except.ok (acc, inv)
  | i, Except.error _ :: gs, acc, inv => listFilesGo includeExt (i + 1) gs acc (inv ++ [i])
  | i, Except.ok ps :: gs, acc, inv =>
    match processPaths includeExt i ps acc inv with
    | Except.error m => Except.error m
    | Except.ok (acc2, inv2) => listFilesGo includeExt (i + 1) gs acc2 inv2

/-- Collected entries and invalid indices after both loops of `list_files`,
starting from index 0 with empty accumulators. -/
def listFilesAux (includeExt : Bool)
    (globs : List (Except Unit (List (Except Unit RPath)))) :
    Except String (List FileToRename × List Nat) :=
  listFilesGo includeExt 0 globs [] []

/-- `format!("#{}", n)` (main.rs line 131). -/
def formatIdx (n : Nat) : String := "#" ++ toString n

/-- `list_files` (main.rs lines 80-140): after the loops, dispatch on the
number of recorded invalid indices (0 / exactly one / several, the last
joined with ", " and a final " and "). -/
def list_files (includeExt : Bool)
    (globs : List (Except Unit (List (Except Unit RPath)))) :
    Except String (List FileToRename) :=
  match listFilesAux includeExt globs with
  | Except.error m => Except.error m
  | Except.ok (entries, inv) =>
    match inv with
    | [] => Except.ok entries
    | [i] =>
      Except.error ("Unable to create search pattern from argument " ++ formatIdx i ++ ".")
    | _ =>
      let strs := inv.map formatIdx
      Except.error ("Unable to create search pattern from arguments " ++
        ", ".intercalate strs.dropLast ++ " and " ++ strs.getLastD "" ++ ".")

/-- `handle_degenerate_cases` message (main.rs lines 142-151). -/
def degenerateMsg (patternCount : Nat) : String :=
  if patternCount = 1 then "No files matched pattern." else "No files matched any patterns."

/-- Observable result of a whole run. -/
inductive RunResult where
  | exited (code : Nat) (msg : String)
  | finished (files : List FileToRename) (fs : FS)
deriving DecidableEq, Repr

/-- `main` (main.rs lines 67-78).  `edit` is the external transformation of
the scratch buffer between write and read; `none` models a read failure.
Note that `main` discards the result of `read_filenames_from_buffer` with
`let _ =` (line 74): on any read or validation error the entries proceed
unmodified.  Dry-run prints the pairs and exits 0 (modelled with the fixed
message "dry run"). -/
def mainModel (includeExt dryRun : Bool)
    (globs : List (Except Unit (List (Except Unit RPath))))
    (edit : String → Option String) (fs : FS) : RunResult :=
  match list_files includeExt globs with
  | Except.error m => RunResult.exited 1 m
  | Except.ok files =>
    if files.length = 0 then RunResult.exited 0 (degenerateMsg globs.length)
    else
      let content := writeFilenamesToBuffer files
      let files2 :=
        match edit content with
        | none => files
        | some edited =>
          match readFilenamesFromBuffer edited files includeExt with
          | Except.ok fl => fl
          | Except.error _ => files
      match executeRenameModel dryRun files2 fs with
      | ExecResult.dryRunPrint _ => RunResult.exited 0 "dry run"
      | ExecResult.died m _ _ => RunResult.exited 1 m
      | ExecResult.done fl fs2 => RunResult.finished fl fs2

/-- Modelled from the spec: "reattach the original path's extension to the
edited stem to form the final filename" — plain concatenation of the edited
stem with the original extension (nothing is removed from the edited stem). -/
def specReattach (stem ext : String) : String :=
  if ext = "" then stem else stem ++ "." ++ ext

/-- The readable paths of one pattern expansion, in order. -/
def pathsOkOf (paths : List (Except Unit RPath)) : List RPath :=
  paths.filterMap fun r => match r with
    | Except.ok p => some p
    | Except.error _ => none

/-- How many paths of one pattern expansion fail to read. -/
def pathsErrCount (paths : List (Except Unit RPath)) : Nat :=
  (paths.filter fun r => match r with
    | Except.ok _ => false
    | Except.error _ => true).length

/-- Concrete run input for the count-mismatch scenario: one matched file. -/
def c1Globs : List (Except Unit (List (Except Unit RPath))) :=
  [Except.ok [Except.ok ⟨"", "a.txt"⟩]]

/-- Filesystem holding exactly the one matched file of `c1Globs`. -/
def c1Fs : FS := ⟨[⟨"", "a.txt"⟩]⟩

/-- An external edit that replaces the buffer by two non-empty lines. -/
def c1Edit : String → Option String := fun _ => some "x\ny\n"

/-- Concrete executor entry `a → b` (already planned). -/
def wEntryA : FileToRename :=
  { mkEntry ⟨"", "a"⟩ "a" with full_path_after := ⟨"", "b"⟩, filename_after := "b" }

/-- Concrete executor entry `c → d` (already planned). -/
def wEntryC : FileToRename :=
  { mkEntry ⟨"", "c"⟩ "c" with full_path_after := ⟨"", "d"⟩, filename_after := "d" }

/-- Filesystem where `wEntryA`'s rename succeeds and `wEntryC`'s target
already exists. -/
def wFs : FS := ⟨[⟨"", "a"⟩, ⟨"", "c"⟩, ⟨"", "d"⟩]⟩

/-- Entry enumerated from `a/archive.tar.gz` with `include_extensions =
false`: the extracted stem is `archive.tar`. -/
def eTar : FileToRename := mkEntry ⟨"a/", "archive.tar.gz"⟩ "archive.tar"

/-- Entry enumerated from `a/report.txt` with `include_extensions = false`:
the extracted stem is `report`. -/
def eRep : FileToRename := mkEntry ⟨"a/", "report.txt"⟩ "report"

/-- Entry whose planned target equals its original path (a no-op). -/
def wNoop : FileToRename :=
  { mkEntry ⟨"", "n"⟩ "n" with full_path_after := ⟨"", "n"⟩, filename_after := "n" }

/-- Entry enumerated from `a/report.txt` with `include_extensions = true`. -/
def wRound : FileToRename := mkEntry ⟨"a/", "report.txt"⟩ "report.txt"

/-! ## Helper lemmas -/

/-- The filter-map in `read_filenames_from_file` equals mapping `trim` and
then discarding the empty results. -/
theorem filterMapTrim (ls : List String) :
    (ls.filterMap fun line =>
      let trimmed := rustTrim line
      if trimmed ≠ "" then some trimmed else none)
      = (ls.map rustTrim).filter (fun s => s ≠ "") := by
  induction ls with
  | nil => rfl
  | cons l t ih =>
    by_cases h : rustTrim l = "" <;>
      simp only [List.filterMap_cons, List.map_cons, List.filter_cons, h, ih] <;> simp [h]

/-- A list of trim-stable non-empty strings passes the filter-map in
`read_filenames_from_file` unchanged. -/
theorem filterMapTrim_self (ls : List String)
    (h : ∀ s ∈ ls, rustTrim s = s ∧ s ≠ "") :
    (ls.filterMap fun line =>
      let trimmed := rustTrim line
      if trimmed ≠ "" then some trimmed else none) = ls := by
  rw [filterMapTrim]
  induction ls with
  | nil => rfl
  | cons l t ih =>
    obtain ⟨h1, h2⟩ := h l (by simp)
    simp only [List.map_cons, List.filter_cons, h1]
    simp only [ne_eq, h2, not_false_iff, decide_True, if_true, List.cons.injEq, true_and]
    exact ih fun s hs => h s (by simp [hs])

/-- Positional access into the zip loop of `read_filenames_from_buffer`. -/
theorem applyNewNames_getElem (includeExt : Bool) (files : List FileToRename)
    (names : List String) (i : Nat) (f : FileToRename) (n : String)
    (hf : files[i]? = some f) (hn : names[i]? = some n) :
    (applyNewNames includeExt files names)[i]? = some (renameEntry includeExt f n) := by
  have hif : i < files.length := (List.getElem?_eq_some_iff.mp hf).1
  have hin : i < names.length := (List.getElem?_eq_some_iff.mp hn).1
  have hz : i < (List.zipWith (renameEntry includeExt) files names).length := by
    simp only [List.length_zipWith, lt_min_iff]; exact ⟨hif, hin⟩
  unfold applyNewNames
  rw [List.getElem?_append, if_pos hz, List.getElem?_zipWith']
  simp [hf, hn]

/-- A successfully processed prefix composes with the rest of the loop. -/
theorem execLoop_append_ok (xs : List FileToRename) (fs : FS)
    (fl : List FileToRename) (fs' : FS)
    (h : execLoop xs fs = (fl, fs', none)) (ys : List FileToRename) :
    execLoop (xs ++ ys) fs = (fl ++ (execLoop ys fs').1, (execLoop ys fs').2) := by
  induction xs generalizing fs fl with
  | nil =>
    simp only [execLoop, Prod.mk.injEq] at h
    obtain ⟨h1, h2, -⟩ := h
    subst h1; subst h2
    simp
  | cons f rest ih =>
    by_cases hno : f.full_path_after = f.full_path_before
    · simp only [execLoop, if_pos hno, Prod.mk.injEq] at h
      obtain ⟨h1, h2⟩ := h
      have hrest : execLoop rest fs = ((execLoop rest fs).1, (execLoop rest fs).2.1,
          (execLoop rest fs).2.2) := rfl
      rw [h2] at hrest
      simp only [List.cons_append, execLoop, if_pos hno, List.append_eq]
      rw [ih fs (execLoop rest fs).1 hrest]
      simp [← h1]
    · rcases hs : renameFileIfSafe f.full_path_before f.full_path_after fs with _ | fs1
      · simp only [execLoop, if_neg hno, hs, Prod.mk.injEq] at h
        exact absurd h.2.2 (by simp)
      · simp only [execLoop, if_neg hno, hs, Prod.mk.injEq] at h
        obtain ⟨h1, h2⟩ := h
        have hrest : execLoop rest fs1 = ((execLoop rest fs1).1, (execLoop rest fs1).2.1,
            (execLoop rest fs1).2.2) := rfl
        rw [h2] at hrest
        simp only [List.cons_append, execLoop, if_neg hno, hs, List.append_eq]
        rw [ih fs1 (execLoop rest fs1).1 hrest]
        simp [← h1]

/-- When every planned target equals its original path, the loop marks
every entry `RenameWasNoop` and touches nothing. -/
theorem execLoop_all_noop (l : List FileToRename) (fs : FS)
    (h : ∀ g ∈ l, g.full_path_after = g.full_path_before) :
    execLoop l fs = (l.map fun g => { g with outcome := FileOutcome.RenameWasNoop }, fs, none) := by
  induction l with
  | nil => simp [execLoop]
  | cons f rest ih =>
    have hf : f.full_path_after = f.full_path_before := h f (by simp)
    simp only [execLoop, if_pos hf, List.map_cons]
    rw [ih fun g hg => h g (by simp [hg])]

/-- The rollback flag is initialised `false` and never assigned, so
`execute_rename` behaves exactly like its rollback-free version. -/
theorem executeRename_rollback_dead (dryRun : Bool) (files : List FileToRename) (fs : FS) :
    executeRenameModel dryRun files fs = executeRenameNoRollback dryRun files fs := by
  unfold executeRenameModel executeRenameNoRollback
  cases dryRun
  · rcases h : execLoop files fs with ⟨fl, fs', err⟩
    cases err <;> simp
  · rfl

/-- Characterisation of a fatal forward loop: a prefix of length `k`
succeeded (ending in exactly the filesystem returned at death), the entry
at index `k` needed a rename that was refused or failed, and that entry
together with the whole suffix is returned untouched. -/
theorem execLoop_died_spec (files : List FileToRename) (fs : FS)
    (fl : List FileToRename) (fs' : FS) (m : String)
    (h : execLoop files fs = (fl, fs', some m)) :
    ∃ k, k < files.length ∧
      ∃ flk, execLoop (files.take k) fs = (flk, fs', none) ∧
        flk.length = k ∧
        fl = flk ++ files.drop k ∧
        (∀ g ∈ flk, g.outcome = FileOutcome.Renamed ∨ g.outcome = FileOutcome.RenameWasNoop) ∧
        ∃ f, files[k]? = some f ∧ f.full_path_after ≠ f.full_path_before ∧
          renameFileIfSafe f.full_path_before f.full_path_after fs' = none := by
  induction files generalizing fs fl with
  | nil => simp [execLoop] at h
  | cons f rest ih =>
    by_cases hno : f.full_path_after = f.full_path_before
    · simp only [execLoop, if_pos hno, Prod.mk.injEq] at h
      obtain ⟨h1, h2⟩ := h
      have hrest : execLoop rest fs = ((execLoop rest fs).1, (execLoop rest fs).2.1,
          (execLoop rest fs).2.2) := rfl
      rw [h2] at hrest
      obtain ⟨k, hk, flk, hpre, hlen, hsplit, hout, g, hg, hgne, hgren⟩ :=
        ih fs (execLoop rest fs).1 hrest
      refine ⟨k + 1, by simpa using Nat.succ_lt_succ hk,
        { f with outcome := FileOutcome.RenameWasNoop } :: flk, ?_, by simp [hlen], ?_, ?_, g, ?_,
        hgne, hgren⟩
      · simp only [List.take_succ_cons, execLoop, if_pos hno, hpre]
      · simp [← h1, hsplit]
      · intro x hx
        rcases List.mem_cons.mp hx with hx | hx
        · simp [hx]
        · exact hout x hx
      · simpa using hg
    · rcases hs : renameFileIfSafe f.full_path_before f.full_path_after fs with _ | fs1
      · simp only [execLoop, if_neg hno, hs, Prod.mk.injEq] at h
        obtain ⟨h1, h2, h3⟩ := h
        refine ⟨0, by simp, [], ?_, rfl, ?_, by simp, f, by simp, hno, ?_⟩
        · simp [execLoop, ← h2]
        · simp [← h1]
        · rw [← h2]; exact hs
      · simp only [execLoop, if_neg hno, hs, Prod.mk.injEq] at h
        obtain ⟨h1, h2⟩ := h
        have hrest : execLoop rest fs1 = ((execLoop rest fs1).1, (execLoop rest fs1).2.1,
            (execLoop rest fs1).2.2) := rfl
        rw [h2] at hrest
        obtain ⟨k, hk, flk, hpre, hlen, hsplit, hout, g, hg, hgne, hgren⟩ :=
          ih fs1 (execLoop rest fs1).1 hrest
        refine ⟨k + 1, by simpa using Nat.succ_lt_succ hk,
          { f with outcome := FileOutcome.Renamed } :: flk, ?_, by simp [hlen], ?_, ?_, g, ?_,
          hgne, hgren⟩
        · simp only [List.take_succ_cons, execLoop, if_neg hno, hs, hpre]
        · simp [← h1, hsplit]
        · intro x hx
          rcases List.mem_cons.mp hx with hx | hx
          · simp [hx]
          · exact hout x hx
        · simpa using hg

/-- `splitNl` never returns the empty list. -/
theorem splitNl_ne_nil (l : List Char) : splitNl l ≠ [] := by
  cases l with
  | nil => simp [splitNl]
  | cons c rest =>
    rcases h : splitNl rest with _ | ⟨a, as⟩
    · simp [splitNl, h]
    · simp only [splitNl, h]
      split <;> simp

/-- Splitting a list that starts with a newline. -/
theorem splitNl_cons_nl (t : List Char) : splitNl ('\n' :: t) = [] :: splitNl t := by
  rcases h : splitNl t with _ | ⟨a, as⟩
  · exact absurd h (splitNl_ne_nil t)
  · simp [splitNl, h]

/-- Splitting a newline-terminated segment peels it off whole when the
segment itself contains no newline. -/
theorem splitNl_append (l t : List Char) (hl : '\n' ∉ l) :
    splitNl (l ++ '\n' :: t) = l :: splitNl t := by
  induction l with
  | nil => simpa using splitNl_cons_nl t
  | cons c cs ih =>
    have hc : c ≠ '\n' := fun hceq => hl (by simp [hceq])
    have hcs : '\n' ∉ cs := fun hmem => hl (by simp [hmem])
    rw [List.cons_append, splitNl, ih hcs]
    simp [hc]

/-- A trim-stable character list cannot end in `'\r'` (a whitespace
character), so `stripCr` leaves it unchanged. -/
theorem stripCr_of_trimmed (l : List Char) (h : trimChars l = l) : stripCr l = l := by
  have h' : ((l.dropWhile isWsChar).reverse.dropWhile isWsChar).reverse = l := h
  rcases hl : l.getLast? with _ | c
  · simp [stripCr, hl]
  · by_cases hc : c = '\r'
    · exfalso
      have hlen0 : ((l.dropWhile isWsChar).reverse.dropWhile isWsChar).reverse.length =
          l.length := by rw [h']
      have hlen1 : (l.dropWhile isWsChar).length ≤ l.length :=
        (List.dropWhile_suffix isWsChar).length_le
      have hlen2 : ((l.dropWhile isWsChar).reverse.dropWhile isWsChar).length ≤
          (l.dropWhile isWsChar).reverse.length :=
        (List.dropWhile_suffix isWsChar).length_le
      simp only [List.length_reverse] at hlen0 hlen2
      have hLeft : l.dropWhile isWsChar = l :=
        (List.dropWhile_suffix isWsChar).eq_of_length (by omega)
      rw [hLeft] at h'
      have hdrop : l.reverse.dropWhile isWsChar = l.reverse := by
        have := congrArg List.reverse h'
        simpa using this
      have hhead : l.reverse.head? = some c := by rw [List.head?_reverse]; exact hl
      rcases hrev : l.reverse with _ | ⟨d, ds⟩
      · rw [hrev] at hhead; simp at hhead
      · rw [hrev] at hhead hdrop
        have hd : d = c := by simpa using hhead
        have hws : isWsChar d = true := by rw [hd, hc]; decide
        rw [List.dropWhile_cons, if_pos hws] at hdrop
        have hlen3 : (ds.dropWhile isWsChar).length ≤ ds.length :=
          (List.dropWhile_suffix isWsChar).length_le
        rw [hdrop] at hlen3
        simp at hlen3
    · simp [stripCr, hl, hc]

/-- Joining newline-terminated newline-free segments and splitting again
recovers the segments plus a final empty segment. -/
theorem splitNl_flatten (ns : List String) (h : ∀ n ∈ ns, '\n' ∉ n.data) :
    splitNl ((ns.map fun n => n.data ++ ['\n']).flatten) = ns.map (·.data) ++ [[]] := by
  induction ns with
  | nil => simp [splitNl]
  | cons a as ih =>
    have ha : '\n' ∉ a.data := h a (by simp)
    simp only [List.map_cons, List.flatten_cons, List.append_assoc, List.singleton_append]
    rw [splitNl_append _ _ ha, ih fun n hn => h n (by simp [hn])]
    simp

/-- Reading back an unedited buffer of newline-free, `stripCr`-stable names
yields exactly those names as lines. -/
theorem rustLines_roundtrip (ns : List String)
    (h : ∀ n ∈ ns, '\n' ∉ n.data ∧ stripCr n.data = n.data) :
    rustLines (String.mk ((ns.map fun n => n.data ++ ['\n']).flatten)) = ns := by
  unfold rustLines
  have hdata : (String.mk ((ns.map fun n => n.data ++ ['\n']).flatten)).data =
      (ns.map fun n => n.data ++ ['\n']).flatten := rfl
  rw [hdata, splitNl_flatten ns fun n hn => (h n hn).1]
  simp only [List.getLast?_concat, if_pos, List.dropLast_concat, List.map_map]
  have hmap : ∀ x ∈ ns, ((fun l => String.mk (stripCr l)) ∘ fun y => y.data) x = id x := by
    intro x hx
    simp only [Function.comp_apply, id_eq]
    rw [(h x hx).2]
  rw [List.map_congr_left hmap, List.map_id]

/-- Inner path loop of `list_files`: with extensions included and all
readable paths bearing a filename, the loop appends one entry per readable
path and records the pattern index `i` once per unreadable path. -/
theorem processPaths_spec (i : Nat) (paths : List (Except Unit RPath))
    (acc : List FileToRename) (inv : List Nat)
    (hbase : ∀ p : RPath, Except.ok p ∈ paths → p.base ≠ "") :
    processPaths true i paths acc inv =
      Except.ok (acc ++ (pathsOkOf paths).map (fun p => mkEntry p p.base),
                 inv ++ List.replicate (pathsErrCount paths) i) := by
  induction paths generalizing acc inv with
  | nil => simp [processPaths, pathsOkOf, pathsErrCount]
  | cons r ps ih =>
    cases r with
    | error u =>
      have hcount : pathsErrCount (Except.error u :: ps) = pathsErrCount ps + 1 := by
        simp [pathsErrCount, List.filter_cons]
      rw [processPaths, ih _ _ fun p hp => hbase p (by simp [hp])]
      simp [pathsOkOf, hcount, List.replicate_succ]
    | ok p =>
      have hb : p.base ≠ "" := hbase p (by simp)
      have hext : extractName true p = some p.base := by
        simp [extractName, RPath.fileNameOpt, hb]
      rw [processPaths, hext]
      show processPaths true i ps (acc ++ [mkEntry p p.base]) inv = _
      rw [ih _ _ fun q hq => hbase q (by simp [hq])]
      have hcount : pathsErrCount (Except.ok p :: ps) = pathsErrCount ps := by
        simp [pathsErrCount, List.filter_cons]
      simp [pathsOkOf, hcount]

/-- `listFilesAux` on a single compiling pattern. -/
theorem listFilesAux_single (paths : List (Except Unit RPath))
    (hbase : ∀ p : RPath, Except.ok p ∈ paths → p.base ≠ "") :
    listFilesAux true [Except.ok paths] =
      Except.ok ((pathsOkOf paths).map (fun p => mkEntry p p.base),
                 List.replicate (pathsErrCount paths) 0) := by
  unfold listFilesAux
  rw [listFilesGo, processPaths_spec 0 paths [] [] hbase]
  simp [listFilesGo]

/-- Trim-stability transfers from strings to their character lists. -/
theorem trimChars_of_rustTrim (s : String) (h : rustTrim s = s) :
    trimChars s.data = s.data :=
  congrArg String.data h

/-- Reading the unedited scratch buffer back recovers exactly the written
names, provided every name is non-empty, trim-stable and newline-free. -/
theorem readNames_roundtrip (files : List FileToRename)
    (h : ∀ f ∈ files, f.filename_before ≠ "" ∧
      rustTrim f.filename_before = f.filename_before ∧ '\n' ∉ f.filename_before.data) :
    readFilenamesFromFile (writeFilenamesToBuffer files) =
      files.map (fun f => f.filename_before) := by
  have hw : writeFilenamesToBuffer files =
      String.mk (((files.map (fun f => f.filename_before)).map
        fun n => n.data ++ ['\n']).flatten) := by
    unfold writeFilenamesToBuffer
    rw [List.map_map]
    rfl
  have hns : ∀ n ∈ files.map (fun f => f.filename_before),
      '\n' ∉ n.data ∧ stripCr n.data = n.data := by
    intro n hn
    obtain ⟨f, hf, rfl⟩ := List.mem_map.mp hn
    obtain ⟨-, h2, h3⟩ := h f hf
    exact ⟨h3, stripCr_of_trimmed _ (trimChars_of_rustTrim _ h2)⟩
  unfold readFilenamesFromFile
  rw [hw, rustLines_roundtrip _ hns]
  apply filterMapTrim_self
  intro s hs
  obtain ⟨f, hf, rfl⟩ := List.mem_map.mp hs
  obtain ⟨h1, h2, -⟩ := h f hf
  exact ⟨h2, h1⟩

/-! ## Claim theorems -/

/-- Claim C8: when reading the edited buffer, the content is split into
lines, every line that is empty after trimming surrounding whitespace is
discarded, and the remaining lines, each trimmed, are taken in order as
the edited names. -/
theorem claim_C8_read_split_trim_filter (content : String) :
    readFilenamesFromFile content =
      ((rustLines content).map rustTrim).filter (fun s => s ≠ "") :=
  filterMapTrim (rustLines content)

/-- Claim C4: the edited name at position `i` is assigned to the entry at
position `i`; the assignment is strictly positional and in particular
independent of the textual content of any other line. -/
theorem claim_C4_positional_assignment (includeExt : Bool)
    (files : List FileToRename) (names : List String) (i : Nat)
    (f : FileToRename) (n : String)
    (hf : files[i]? = some f) (hn : names[i]? = some n) :
    (applyNewNames includeExt files names)[i]? = some (renameEntry includeExt f n) ∧
    ∀ names2 : List String, names2[i]? = some n →
      (applyNewNames includeExt files names2)[i]? =
        (applyNewNames includeExt files names)[i]? := by
  refine ⟨applyNewNames_getElem _ _ _ _ _ _ hf hn, ?_⟩
  intro names2 hn2
  rw [applyNewNames_getElem _ _ _ _ _ _ hf hn2, applyNewNames_getElem _ _ _ _ _ _ hf hn]

/-- Witness for C4 at a concrete input: swapping the two lines swaps which
entry receives which name, by position. -/
theorem claim_C4_witness :
    (applyNewNames true [wEntryA, wEntryC] ["q", "r"])[0]? =
        some (renameEntry true wEntryA "q") ∧
    (applyNewNames true [wEntryA, wEntryC] ["r", "q"])[0]? =
        some (renameEntry true wEntryA "r") :=
  ⟨(claim_C4_positional_assignment true [wEntryA, wEntryC] ["q", "r"] 0 wEntryA "q"
      rfl rfl).1,
   (claim_C4_positional_assignment true [wEntryA, wEntryC] ["r", "q"] 0 wEntryA "r"
      rfl rfl).1⟩

/-- Claim C5 as stated is false: with `include_extensions = false` the final
filename is not the edited stem with the original extension reattached;
`with_extension` first strips anything after the edited stem's own last
dot.  Editing `a/report.txt`'s stem to `summary.v2` yields `summary.txt`,
not `summary.v2.txt`. -/
theorem claim_C5_counterexample :
    (applyNewNames false [eRep] ["summary.v2"]).map (fun g => g.filename_after) =
      ["summary.txt"] ∧
    specReattach "summary.v2" (eRep.full_path_before.extOpt.getD "") = "summary.v2.txt" ∧
    ("summary.txt" : String) ≠ "summary.v2.txt" := by
  refine ⟨rfl, rfl, by decide⟩

/-- Claim C5 (amended): with `include_extensions = false` the final filename
is `with_extension` applied to the edited name and the original path's
extension (replacing any extension the edited name itself carries); with
`include_extensions = true` the edited name is used verbatim; in both cases
the target path is the original path with only its final component
replaced. -/
theorem claim_C5_extension_replacement (files : List FileToRename)
    (names : List String) (i : Nat) (f : FileToRename) (n : String)
    (hf : files[i]? = some f) (hn : names[i]? = some n) :
    (applyNewNames false files names)[i]? = some { f with
        filename_after := rustWithExtension n (f.full_path_before.extOpt.getD ""),
        full_path_after :=
          ⟨f.full_path_before.dir, rustWithExtension n (f.full_path_before.extOpt.getD "")⟩ } ∧
    (applyNewNames true files names)[i]? = some { f with
        filename_after := n,
        full_path_after := ⟨f.full_path_before.dir, n⟩ } := by
  constructor
  · rw [applyNewNames_getElem false files names i f n hf hn]
    rfl
  · rw [applyNewNames_getElem true files names i f n hf hn]
    rfl

/-- Witness for C5 at the spec's own example: `a/report.txt` with edited
stem `summary` becomes `a/summary.txt`. -/
theorem claim_C5_witness :
    (applyNewNames false [eRep] ["summary"])[0]? =
      some { eRep with
             filename_after := "summary.txt",
             full_path_after := ⟨"a/", "summary.txt"⟩ } := by
  have h := (claim_C5_extension_replacement [eRep] ["summary"] 0 eRep "summary" rfl rfl).1
  rw [h]
  decide

/-- Claim C3: when an entry whose target differs from its original path is
reached (after any successfully processed prefix) and its target already
exists, the rename is refused, the run dies fatally with the executor's
message, and the filesystem — the pre-existing target file included — is
exactly as it was when the entry was reached. -/
theorem claim_C3_conflict_refusal (pre : List FileToRename) (f : FileToRename)
    (rest : List FileToRename) (fs : FS) (flp : List FileToRename) (fsp : FS)
    (hpre : execLoop pre fs = (flp, fsp, none))
    (hne : f.full_path_after ≠ f.full_path_before)
    (hex : fsp.pathExists f.full_path_after = true) :
    execLoop (pre ++ f :: rest) fs =
      (flp ++ f :: rest, fsp, some "file renaming was not safe") ∧
    executeRenameModel false (pre ++ f :: rest) fs =
      ExecResult.died "file renaming was not safe" (flp ++ f :: rest) fsp := by
  have hsafe : renameFileIfSafe f.full_path_before f.full_path_after fsp = none := by
    unfold renameFileIfSafe
    rw [hex]
    simp
  have hhead : execLoop (f :: rest) fsp = (f :: rest, fsp, some "file renaming was not safe") := by
    simp only [execLoop, if_neg hne, hsafe]
  have hall := execLoop_append_ok pre fs flp fsp hpre (f :: rest)
  rw [hhead] at hall
  have hall' : execLoop (pre ++ f :: rest) fs =
      (flp ++ f :: rest, fsp, some "file renaming was not safe") := by simpa using hall
  refine ⟨hall', ?_⟩
  simp [executeRenameModel, hall']

/-- Witness for C3: after a successful no-op prefix, the entry `c → d` is
refused because `d` exists, and the filesystem is returned untouched. -/
theorem claim_C3_witness :
    executeRenameModel false ([wNoop] ++ wEntryC :: []) ⟨[⟨"", "d"⟩]⟩ =
      ExecResult.died "file renaming was not safe"
        ([{ wNoop with outcome := FileOutcome.RenameWasNoop }] ++ wEntryC :: [])
        ⟨[⟨"", "d"⟩]⟩ :=
  (claim_C3_conflict_refusal [wNoop] wEntryC [] ⟨[⟨"", "d"⟩]⟩
    [{ wNoop with outcome := FileOutcome.RenameWasNoop }] ⟨[⟨"", "d"⟩]⟩
    (by decide) (by decide) (by decide)).2

/-- Claim C9: when enumeration succeeds with zero matched files, the run is
a degenerate success: a "no files matched" message and exit status 0,
without reaching the buffer, planner or executor stages (in `mainModel`
those stages are only evaluated on the non-empty branch). -/
theorem claim_C9_degenerate_success (includeExt dryRun : Bool)
    (globs : List (Except Unit (List (Except Unit RPath))))
    (edit : String → Option String) (fs : FS)
    (h : list_files includeExt globs = Except.ok []) :
    mainModel includeExt dryRun globs edit fs =
      RunResult.exited 0
        (if globs.length = 1 then "No files matched pattern."
         else "No files matched any patterns.") := by
  unfold mainModel
  rw [h]
  simp [degenerateMsg]

/-- Witness for C9: a single pattern matching zero files exits 0 with the
singular message. -/
theorem claim_C9_witness :
    mainModel true false [Except.ok []] (fun _ => none) ⟨[]⟩ =
      RunResult.exited 0 "No files matched pattern." := by
  have h := claim_C9_degenerate_success true false [Except.ok []] (fun _ => none) ⟨[]⟩ rfl
  rw [h]
  decide

/-- Claim C7: whenever any invalid pattern indices were recorded,
`list_files` fails with a single aggregated message — singular phrasing
when exactly one index was recorded, comma-separated with a final "and"
otherwise — and never returns entries. -/
theorem claim_C7_error_aggregation (includeExt : Bool)
    (globs : List (Except Unit (List (Except Unit RPath))))
    (entries : List FileToRename) (inv : List Nat)
    (hAux : listFilesAux includeExt globs = Except.ok (entries, inv)) :
    (∀ i, inv = [i] →
      list_files includeExt globs =
        Except.error ("Unable to create search pattern from argument #" ++ toString i ++ ".")) ∧
    (∀ i j tl, inv = i :: j :: tl →
      list_files includeExt globs =
        Except.error ("Unable to create search pattern from arguments " ++
          ", ".intercalate ((inv.map formatIdx).dropLast) ++ " and " ++
          (inv.map formatIdx).getLastD "" ++ ".")) ∧
    (inv ≠ [] → ∀ es, list_files includeExt globs ≠ Except.ok es) := by
  refine ⟨?_, ?_, ?_⟩
  · intro i hi
    subst hi
    unfold list_files
    rw [hAux]
    rfl
  · intro i j tl hi
    subst hi
    unfold list_files
    rw [hAux]
  · intro hne es
    unfold list_files
    rw [hAux]
    match inv, hne with
    | i :: tl, _ =>
      cases tl <;> simp

/-- Witness for C7 at the spec's example: patterns 0 and 2 invalid produce
one message naming both. -/
theorem claim_C7_witness :
    list_files true [Except.error (), Except.ok [Except.ok ⟨"", "p"⟩], Except.error ()] =
      Except.error "Unable to create search pattern from arguments #0 and #2." := by
  have h := (claim_C7_error_aggregation true
    [Except.error (), Except.ok [Except.ok ⟨"", "p"⟩], Except.error ()]
    [mkEntry ⟨"", "p"⟩ "p"] [0, 2] rfl).2.1 0 2 [] rfl
  rw [h]
  rfl

/-- Claim C10: one pattern records its index once per unreadable path in
its expansion — so the aggregated message can name the same index more
than once — while the pattern's readable paths are still collected as
entries before the run aborts. -/
theorem claim_C10_duplicate_index_recording (paths : List (Except Unit RPath))
    (hbase : ∀ p : RPath, Except.ok p ∈ paths → p.base ≠ "") :
    listFilesAux true [Except.ok paths] =
      Except.ok ((pathsOkOf paths).map (fun p => mkEntry p p.base),
                 List.replicate (pathsErrCount paths) 0) ∧
    (pathsErrCount paths = 2 →
      list_files true [Except.ok paths] =
        Except.error "Unable to create search pattern from arguments #0 and #0.") ∧
    (1 ≤ pathsErrCount paths → ∀ es, list_files true [Except.ok paths] ≠ Except.ok es) := by
  have hA := listFilesAux_single paths hbase
  refine ⟨hA, ?_, ?_⟩
  · intro h2
    unfold list_files
    rw [hA, h2]
    rfl
  · intro h1 es
    unfold list_files
    rw [hA]
    rcases hc : pathsErrCount paths with _ | n
    · omega
    · rcases n with _ | m <;> simp [List.replicate_succ]

/-- Witness for C10: two unreadable paths inside one pattern record index 0
twice; the readable paths still become entries, and the aggregated message
names #0 twice. -/
theorem claim_C10_witness :
    listFilesAux true [Except.ok [Except.ok ⟨"", "a"⟩, Except.error (), Except.ok ⟨"", "b"⟩,
        Except.error ()]] =
      Except.ok ([mkEntry ⟨"", "a"⟩ "a", mkEntry ⟨"", "b"⟩ "b"], [0, 0]) ∧
    list_files true [Except.ok [Except.ok ⟨"", "a"⟩, Except.error (), Except.ok ⟨"", "b"⟩,
        Except.error ()]] =
      Except.error "Unable to create search pattern from arguments #0 and #0." := by
  have h := claim_C10_duplicate_index_recording
    [Except.ok ⟨"", "a"⟩, Except.error (), Except.ok ⟨"", "b"⟩, Except.error ()]
    (by intro p hp; simp at hp; rcases hp with rfl | rfl <;> decide)
  refine ⟨?_, h.2.1 rfl⟩
  rw [h.1]
  rfl

/-- Claim C1 is the spec's intent but the code drops the error: `main`
discards the result of `read_filenames_from_buffer` with `let _ =`
(main.rs line 74).  On a count mismatch the validation error is computed
and thrown away, the entries keep their empty `full_path_after`, the
executor runs, attempts a rename to the empty path, and the run dies with
the executor's message instead of the count-mismatch message. -/
theorem claim_C1_mismatch_error_discarded :
    mainModel true false c1Globs c1Edit c1Fs =
      RunResult.exited 1 "file renaming was not safe" ∧
    validateFilenames 1 (readFilenamesFromFile "x\ny\n") =
      Except.error "Too many filenames in text file after edit (2 instead of 1)." ∧
    readFilenamesFromBuffer "x\ny\n" [mkEntry ⟨"", "a.txt"⟩ "a.txt"] true =
      Except.error "Too many filenames in text file after edit (2 instead of 1)." ∧
    executeRenameModel false [mkEntry ⟨"", "a.txt"⟩ "a.txt"] c1Fs =
      ExecResult.died "file renaming was not safe" [mkEntry ⟨"", "a.txt"⟩ "a.txt"] c1Fs :=
  ⟨rfl, rfl, rfl, rfl⟩

/-- Claim C2: the rollback branch is gated by a flag never set to true and
is therefore unreachable on every execution; and whenever the executor
dies, the exit status is non-zero, processing stopped exactly at the
failing index `k` (the failing entry and the whole suffix are returned
untouched), every previously processed entry is `Renamed` or
`RenameWasNoop`, and the filesystem at death is exactly the state produced
by the successful prefix — nothing is undone. -/
theorem claim_C2_fatal_stop_no_rollback :
    (∀ (dryRun : Bool) (files : List FileToRename) (fs : FS),
      executeRenameModel dryRun files fs = executeRenameNoRollback dryRun files fs) ∧
    (∀ (files : List FileToRename) (fs : FS) (m : String)
       (fl : List FileToRename) (fs' : FS),
      executeRenameModel false files fs = ExecResult.died m fl fs' →
      exitOf (executeRenameModel false files fs) = some 1 ∧
      ∃ k, k < files.length ∧
        ∃ flk, execLoop (files.take k) fs = (flk, fs', none) ∧
          flk.length = k ∧
          fl = flk ++ files.drop k ∧
          (∀ g ∈ flk, g.outcome = FileOutcome.Renamed ∨ g.outcome = FileOutcome.RenameWasNoop) ∧
          ∃ f, files[k]? = some f ∧ f.full_path_after ≠ f.full_path_before ∧
            renameFileIfSafe f.full_path_before f.full_path_after fs' = none) := by
  refine ⟨executeRename_rollback_dead, ?_⟩
  intro files fs m fl fs' hdied
  have hloop : execLoop files fs = (fl, fs', some m) := by
    rw [executeRename_rollback_dead] at hdied
    unfold executeRenameNoRollback at hdied
    rcases h : execLoop files fs with ⟨fl0, fs0, err0⟩
    rw [h] at hdied
    cases err0 with
    | none => simp at hdied
    | some m0 =>
      simp only [Bool.false_eq_true, if_false, ExecResult.died.injEq] at hdied
      obtain ⟨hm, hfl, hfs⟩ := hdied
      rw [hm, hfl, hfs]
  refine ⟨by rw [hdied]; rfl, ?_⟩
  exact execLoop_died_spec files fs fl fs' m hloop

/-- Witness for C2: `a → b` succeeds, then `c → d` fails because `d`
exists; the run dies having stopped at index 1 with `a`'s rename kept. -/
theorem claim_C2_witness :
    exitOf (executeRenameModel false [wEntryA, wEntryC] wFs) = some 1 ∧
    ∃ k, k < ([wEntryA, wEntryC] : List FileToRename).length ∧
      ∃ flk, execLoop (([wEntryA, wEntryC] : List FileToRename).take k) wFs =
          (flk, ⟨[⟨"", "c"⟩, ⟨"", "d"⟩, ⟨"", "b"⟩]⟩, none) ∧
        flk.length = k ∧
        [{ wEntryA with outcome := FileOutcome.Renamed }, wEntryC] =
          flk ++ ([wEntryA, wEntryC] : List FileToRename).drop k ∧
        (∀ g ∈ flk, g.outcome = FileOutcome.Renamed ∨ g.outcome = FileOutcome.RenameWasNoop) ∧
        ∃ f, ([wEntryA, wEntryC] : List FileToRename)[k]? = some f ∧
          f.full_path_after ≠ f.full_path_before ∧
          renameFileIfSafe f.full_path_before f.full_path_after
            ⟨[⟨"", "c"⟩, ⟨"", "d"⟩, ⟨"", "b"⟩]⟩ = none :=
  claim_C2_fatal_stop_no_rollback.2 [wEntryA, wEntryC] wFs "file renaming was not safe"
    [{ wEntryA with outcome := FileOutcome.Renamed }, wEntryC]
    ⟨[⟨"", "c"⟩, ⟨"", "d"⟩, ⟨"", "b"⟩]⟩ rfl

/-- Claim C6 as stated is false: the buffer can be read back exactly as
written and an entry still be renamed.  With `include_extensions = false`
the file `a/archive.tar.gz` has stem `archive.tar`; reading it back
unedited, `with_extension` replaces `.tar` by the original extension `gz`,
producing the target `a/archive.gz` — the entry is not a no-op, its
outcome becomes `Renamed`, and the filesystem is mutated. -/
theorem claim_C6_counterexample :
    writeFilenamesToBuffer [eTar] = "archive.tar\n" ∧
    readFilenamesFromFile (writeFilenamesToBuffer [eTar]) = ["archive.tar"] ∧
    extractName false ⟨"a/", "archive.tar.gz"⟩ = some "archive.tar" ∧
    readFilenamesFromBuffer (writeFilenamesToBuffer [eTar]) [eTar] false =
      Except.ok [{ eTar with
                   filename_after := "archive.gz",
                   full_path_after := ⟨"a/", "archive.gz"⟩ }] ∧
    ({ eTar with
       filename_after := "archive.gz",
       full_path_after := ⟨"a/", "archive.gz"⟩ } : FileToRename).full_path_after ≠
      eTar.full_path_before ∧
    executeRenameModel false
        [{ eTar with
           filename_after := "archive.gz",
           full_path_after := ⟨"a/", "archive.gz"⟩ }]
        ⟨[⟨"a/", "archive.tar.gz"⟩]⟩ =
      ExecResult.done
        [{ eTar with
           filename_after := "archive.gz",
           full_path_after := ⟨"a/", "archive.gz"⟩,
           outcome := FileOutcome.Renamed }]
        ⟨[⟨"a/", "archive.gz"⟩]⟩ :=
  ⟨rfl, rfl, rfl, rfl, by decide, rfl⟩

/-- Claim C6 (amended): with `include_extensions = true` and every original
filename equal to its path's final component, non-empty, trim-stable and
newline-free, reading the buffer back exactly as written makes every
entry's target equal its original path, every outcome `RenameWasNoop`, and
leaves the filesystem untouched. -/
theorem claim_C6_noop_roundtrip (files : List FileToRename) (fs : FS)
    (h : ∀ f ∈ files, f.filename_before = f.full_path_before.base ∧
      f.filename_before ≠ "" ∧ rustTrim f.filename_before = f.filename_before ∧
      '\n' ∉ f.filename_before.data) :
    ∃ files2,
      readFilenamesFromBuffer (writeFilenamesToBuffer files) files true = Except.ok files2 ∧
      (∀ g ∈ files2, g.full_path_after = g.full_path_before) ∧
      executeRenameModel false files2 fs =
        ExecResult.done (files2.map fun g => { g with outcome := FileOutcome.RenameWasNoop })
          fs := by
  have hread : readFilenamesFromFile (writeFilenamesToBuffer files) =
      files.map (fun f => f.filename_before) :=
    readNames_roundtrip files fun f hf => ⟨(h f hf).2.1, (h f hf).2.2.1, (h f hf).2.2.2⟩
  have hval : validateFilenames files.length (files.map fun f => f.filename_before) =
      Except.ok () := by
    simp [validateFilenames]
  have happly : applyNewNames true files (files.map fun f => f.filename_before) =
      files.map fun f => renameEntry true f f.filename_before := by
    unfold applyNewNames
    rw [List.zipWith_map_right, List.zipWith_same]
    simp
  have hok : readFilenamesFromBuffer (writeFilenamesToBuffer files) files true =
      Except.ok (files.map fun f => renameEntry true f f.filename_before) := by
    unfold readFilenamesFromBuffer
    simp only [hread, hval, happly]
  have hnoop : ∀ g ∈ files.map fun f => renameEntry true f f.filename_before,
      g.full_path_after = g.full_path_before := by
    intro g hg
    obtain ⟨f, hf, rfl⟩ := List.mem_map.mp hg
    have h1 := (h f hf).1
    show f.full_path_before.withFileName f.filename_before = f.full_path_before
    rw [h1]
    rfl
  refine ⟨files.map fun f => renameEntry true f f.filename_before, hok, hnoop, ?_⟩
  have hexec := execLoop_all_noop (files.map fun f => renameEntry true f f.filename_before)
    fs hnoop
  simp [executeRenameModel, hexec]

/-- Witness for C6 (amended) at a concrete input: one file `a/report.txt`
with extensions included round-trips as a pure no-op. -/
theorem claim_C6_witness :
    ∃ files2,
      readFilenamesFromBuffer (writeFilenamesToBuffer [wRound]) [wRound] true =
        Except.ok files2 ∧
      (∀ g ∈ files2, g.full_path_after = g.full_path_before) ∧
      executeRenameModel false files2 ⟨[⟨"a/", "report.txt"⟩]⟩ =
        ExecResult.done (files2.map fun g => { g with outcome := FileOutcome.RenameWasNoop })
          ⟨[⟨"a/", "report.txt"⟩]⟩ := by
  apply claim_C6_noop_roundtrip [wRound] ⟨[⟨"a/", "report.txt"⟩]⟩
  intro f hf
  rw [List.mem_singleton.mp hf]
  refine ⟨rfl, by decide, by decide, by decide⟩
